/-
Formal model of the core audio / caption pipeline of the `new-video` repository
(services/audioService.ts, services/videoExportService.ts and the caption
utility module), together with proofs checking the natural-language
specification against the code.

Conventions of the embedding:
* JavaScript floating-point numbers are modelled as exact rationals (`ℚ`);
  machine integers as `ℕ`/`ℤ` with explicit `% 2^w` where the code relies on
  wrap-around.
* `WordTiming.end` is a reserved word in Lean, so the field is called `endT`;
  all other names follow the source.
* Functions that can throw in the browser (`atob`, `new Int16Array`,
  `createBuffer`) are modelled with `Option`/`Except`.
-/
import Mathlib

set_option maxRecDepth 8000

/-! ## Definitions: the embedded program and the spec-side definitions -/

/-- ASCII whitespace matched by the `\s` class of the split regex
(space, tab, LF, VT, FF, CR). -/
def isWsChar (c : Char) : Bool :=
  c = ' ' || c = '\t' || c = '\n' || c = '\r' || c.toNat = 11 || c.toNat = 12

/-- JS `String.prototype.trim`: strip leading and trailing whitespace. -/
def jsTrim (s : List Char) : List Char :=
  (s.dropWhile isWsChar).rdropWhile isWsChar

/-- One step of splitting a character list at whitespace: a whitespace
character opens a new (initially empty) token, any other character is
prepended to the current front token. -/
def addTok (c : Char) (acc : List (List Char)) : List (List Char) :=
  if isWsChar c then [] :: acc
  else
    match acc with
    | [] => [[c]]
    | t :: ts => (c :: t) :: ts

/-- Split into tokens separated by single whitespace characters (empty tokens
mark runs of consecutive whitespace). -/
def splitRaw (s : List Char) : List (List Char) := s.foldr addTok [[]]

/-- The maximal non-whitespace runs of `s`. -/
def fields (s : List Char) : List (List Char) :=
  (splitRaw s).filter (fun t => !t.isEmpty)

/-- JS `s.split(/\s+/)` for a string `s` with no leading or trailing whitespace
(the invariant at the single call site, which splits a trimmed string):
the empty string yields `[""]`, any other such string yields its maximal
non-whitespace runs. -/
def jsSplitWs (s : List Char) : List (List Char) :=
  if s.isEmpty then [[]] else fields s

/-- The tokenization `caption.trim().split(/\s+/)` from `calculateWordTimings`. -/
def tokenizeScript (caption : String) : List String :=
  (jsSplitWs (jsTrim caption.data)).map (fun t => String.mk t)

/-- Test `word.match(/[.!?]$/)`: the last character is `.`, `!` or `?`. -/
def endsSentencePunct (w : List Char) : Bool :=
  match w.getLast? with
  | some c => c = '.' || c = '!' || c = '?'
  | none => false

/-- The per-word weight of the fallback caption-timing heuristic:
`length + (1 if length < 3) + (4 if contains ',') + (8 if /[.!?]$/)`. -/
def wordWeight (w : String) : ℕ :=
  let len := w.data.length
  len + (if len < 3 then 1 else 0) + (if w.data.contains ',' then 4 else 0)
      + (if endsSentencePunct w.data then 8 else 0)

/-- Interface `WordTiming` of the source; `end` is a Lean keyword so the field is
`endT`. -/
structure WordTimingQ where
  word : String
  start : ℚ
  endT : ℚ
  index : ℕ
deriving DecidableEq, Repr, Inhabited

/-- Interface `CaptionChunk` of the source. -/
structure CaptionChunkQ where
  words : List WordTimingQ
  startTime : ℚ
  endTime : ℚ
deriving DecidableEq, Repr, Inhabited

/-- The final `.map` of `calculateWordTimings`: walk the weighted words in
order carrying the mutable `currentTime` (`cur`) and the running index. -/
def buildTimings (u : ℚ) : List (String × ℕ) → ℚ → ℕ → List WordTimingQ
  | [], _, _ => []
  | (w, wt) :: rest, cur, i =>
      ⟨w, cur, cur + (wt : ℚ) * u, i⟩ :: buildTimings u rest (cur + (wt : ℚ) * u) (i + 1)

/-- `calculateWordTimings` from the caption utility module, translated
statement by statement (`!caption` is `caption = ""`). -/
def calculateWordTimings (caption : String) (audioDuration : ℚ) : List WordTimingQ :=
  if caption = "" ∨ audioDuration ≤ 0 then []
  else
    let rawWords := tokenizeScript caption
    let weightedWords := rawWords.map (fun w => (w, wordWeight w))
    let totalWeight := (weightedWords.map Prod.snd).sum
    let unitDuration := audioDuration / (totalWeight : ℚ)
    buildTimings unitDuration weightedWords 0 0

/-- Target aspect ratios of the exporter. -/
inductive Aspect where
  | nineSixteen
  | sixteenNine
deriving DecidableEq, Repr

/-- Window size `WORDS_PER_CHUNK = aspectRatio === '16:9' ? 7 : 4`. -/
def wordsPerChunk (ar : Aspect) : ℕ :=
  match ar with
  | .sixteenNine => 7
  | .nineSixteen => 4

/-- The chunking loop `for (i = 0; i < n; i += N) slice(i, i + N)`, written
with explicit fuel so that it is structurally recursive; `fuel ≥ l.length`
makes it total for `n ≥ 1`. -/
def chunksOfAux (n : ℕ) : ℕ → List α → List (List α)
  | _, [] => []
  | 0, _ :: _ => []
  | fuel + 1, c :: rest => ((c :: rest).take n) :: chunksOfAux n fuel ((c :: rest).drop n)

/-- Split a list into consecutive windows of `n` elements (last window may be
shorter); `n = 0` cannot occur at the call sites (`n` is 7 or 4). -/
def chunksOf (n : ℕ) (l : List α) : List (List α) :=
  if n = 0 then [] else chunksOfAux n l.length l

/-- Function `getCaptionChunks`: windows of `WORDS_PER_CHUNK` consecutive word timings;
a chunk's span is first word's `start` to last word's `end`.  The source
guards `chunkWords.length > 0`, which always holds for the produced slices,
so every window becomes a chunk. -/
def getCaptionChunks (wordTimings : List WordTimingQ) (ar : Aspect) : List CaptionChunkQ :=
  (chunksOf (wordsPerChunk ar) wordTimings).map
    (fun cw => ⟨cw, (cw.headD default).start, (cw.getLastD default).endT⟩)

/-- The active-chunk selection of the compositor frame loop:
`captionChunks.find(c => t >= c.startTime && t < c.endTime)
 || (t < audioBuffer.duration ? captionChunks[0] : null)`. -/
def chunkContains (e : ℚ) (c : CaptionChunkQ) : Bool :=
  decide (c.startTime ≤ e) && decide (e < c.endTime)

/-- Selection `findActiveChunk chunks elapsed duration`: the compositor's active chunk,
`none` standing for JavaScript `null`/`undefined`. -/
def findActiveChunk (chunks : List CaptionChunkQ) (e : ℚ) (audioDuration : ℚ) :
    Option CaptionChunkQ :=
  match chunks.find? (chunkContains e) with
  | some c => some c
  | none => if e < audioDuration then chunks.head? else none

/-- Weight of one word, as the specification words it. -/
def specWordWeight (w : String) : ℕ :=
  w.data.length + (if w.data.length < 3 then 1 else 0)
    + (if ',' ∈ w.data then 4 else 0)
    + (if w.data.getLast? = some '.' ∨ w.data.getLast? = some '!' ∨ w.data.getLast? = some '?'
        then 8 else 0)

/-- Cumulative weight of the words before position `j` (the spec's
`cumulativeTime` measured in weight units). -/
def specPrefixWeight (ws : List String) (j : ℕ) : ℕ :=
  ((ws.take j).map specWordWeight).sum

/-- The timing sequence exactly as the specification describes it. -/
def specTimings (caption : String) (d : ℚ) : List WordTimingQ :=
  let ws := tokenizeScript caption
  let u := d / (((ws.map specWordWeight).sum : ℕ) : ℚ)
  ws.enum.map (fun p =>
    ⟨p.2, (specPrefixWeight ws p.1 : ℚ) * u,
      ((specPrefixWeight ws p.1 : ℚ) + (specWordWeight p.2 : ℚ)) * u, p.1⟩)

/-- Cumulative code-side weight of the words before position `j`. -/
def prefixWeight (ws : List String) (j : ℕ) : ℕ :=
  ((ws.take j).map wordWeight).sum

/-- Total weight of a script under the fallback heuristic. -/
def totalWeightOf (caption : String) : ℕ :=
  ((tokenizeScript caption).map wordWeight).sum

/-- Concrete five-word timing list used by the C5 witness. -/
def demoTimings : List WordTimingQ :=
  [⟨"a", 0, 1, 0⟩, ⟨"b", 1, 2, 1⟩, ⟨"c", 2, 3, 2⟩, ⟨"d", 3, 4, 3⟩, ⟨"e", 4, 5, 4⟩]

/-- Waveform (`OscillatorType`) values used by the synthesizer. -/
inductive OscKind where
  | sine
  | triangle
  | sawtooth
  | square
deriving DecidableEq, Repr

/-- The `MoodProfile` produced by `getFrequenciesAndType`: partial
frequencies, waveform, detune amount (cents), LFO frequency and depth. -/
structure MoodProfile where
  frequencies : List ℚ
  type : OscKind
  detuneAmount : ℚ
  lfoFreq : ℚ
  lfoDepth : ℚ
deriving DecidableEq, Repr

/-- Function `getFrequenciesAndType` from `audioService.ts`.  The TypeScript `switch`
compares the string values of the `Mood` and `MusicPreset` enums (from
`types.ts`); the `default` branch keeps the initial
`type='sine', detuneAmount=5, lfoFreq=0.2, lfoDepth=0.05` and sets
`frequencies=[220, 277, 330]`. -/
def getFrequenciesAndType (mood : String) : MoodProfile :=
  if mood = "Neutral" then ⟨[110, 164.81, 196, 220], .sine, 5, 0.3, 0.1⟩
  else if mood = "Happy" then ⟨[261.63, 329.63, 392.00, 523.25], .triangle, 8, 2.0, 0.15⟩
  else if mood = "Sad" then ⟨[146.83, 174.61, 220.00, 293.66], .sine, 5, 0.15, 0.1⟩
  else if mood = "Tense" then ⟨[110, 116.54, 155.56, 164.81], .sawtooth, 4, 0.5, 0.2⟩
  else if mood = "Excited" then ⟨[293.66, 369.99, 440.00, 587.33], .triangle, 10, 3.0, 0.1⟩
  else if mood = "Mysterious" then ⟨[138.59, 196.00, 246.94, 277.18], .sine, 15, 0.25, 0.15⟩
  else if mood = "Professional" then ⟨[196, 246.94, 293.66, 392], .sine, 5, 0.5, 0.05⟩
  else if mood = "Viral Phonk (Trending)" then ⟨[55, 110, 164.81, 220], .sawtooth, 15, 4.0, 0.35⟩
  else if mood = "Lo-Fi Chill (English)" then
    ⟨[130.81, 155.56, 196.00, 246.94], .sine, 2, 0.5, 0.1⟩
  else if mood = "Bollywood Romance (Hindi)" then
    ⟨[261.63, 329.63, 392.00, 493.88], .triangle, 12, 0.2, 0.15⟩
  else if mood = "Desi Beats (Hindi)" then
    ⟨[146.83, 220.00, 293.66, 440.00], .square, 5, 2.0, 0.25⟩
  else if mood = "Epic Cinematic (Viral)" then
    ⟨[65.41, 98.00, 130.81, 196.00], .sawtooth, 8, 0.1, 0.3⟩
  else ⟨[220, 277, 330], .sine, 5, 0.2, 0.05⟩

/-- The string values of the `Mood` and `MusicPreset` enums handled by the
`switch` cases. -/
def recognizedMoodTags : List String :=
  ["Neutral", "Happy", "Sad", "Tense", "Excited", "Mysterious", "Professional",
   "Viral Phonk (Trending)", "Lo-Fi Chill (English)", "Bollywood Romance (Hindi)",
   "Desi Beats (Hindi)", "Epic Cinematic (Viral)"]

/-- The default profile of the `switch`'s `default` branch: three sine
partials. -/
def defaultMoodProfile : MoodProfile := ⟨[220, 277, 330], .sine, 5, 0.2, 0.05⟩

/-- Decoded/rendered audio (`AudioBuffer`): channel count, sample rate, frame
count (`ab.length` in the source) and per-channel sample lists. -/
structure AudioBufM where
  numChannels : ℕ
  sampleRate : ℕ
  numFrames : ℕ
  channels : List (List ℚ)
deriving DecidableEq, Repr

/-- Sample access `ab.getChannelData(ch)[i]`, 0 outside the stored data. -/
def sampleAt (ab : AudioBufM) (ch i : ℕ) : ℚ := (ab.channels.getD ch []).getD i 0

/-- Clamping `Math.max(-1, Math.min(1, sample))`. -/
def clamp1 (x : ℚ) : ℚ := max (-1) (min 1 x)

/-- Coercion `| 0`: truncation toward zero of a rational (the values at the call site
always fit in an int32). -/
def ratTrunc (q : ℚ) : ℤ := Int.tdiv q.num (q.den : ℤ)

/-- The per-sample quantization of `bufferToWav`:
`(sample < 0 ? sample * 32768 : sample * 32767) | 0` after clamping. -/
def quantize16 (x : ℚ) : ℤ :=
  let s := clamp1 x
  if s < 0 then ratTrunc (s * 32768) else ratTrunc (s * 32767)

/-- Write `view.setUint16(pos, n, true)`: two little-endian bytes. -/
def u16le (n : ℕ) : List ℕ := [n % 256, n / 256 % 256]

/-- Write `view.setUint32(pos, n, true)`: four little-endian bytes. -/
def u32le (n : ℕ) : List ℕ :=
  [n % 256, n / 256 % 256, n / 65536 % 256, n / 16777216 % 256]

/-- Write `view.setInt16(pos, z, true)`: two's-complement low 16 bits,
little-endian. -/
def i16le (z : ℤ) : List ℕ := u16le (z % 65536).toNat

/-- Function `bufferToWav` from `audioService.ts`.  The sequential `DataView` writes
become list concatenation; `length` is the source's local of the same name
(`ab.length * numOfChan * 2 + 44`), the data-chunk size field is written as
`length - pos - 4` with `pos = 40`, i.e. `length - 44`; the sample loop
interleaves channels within each frame. -/
def bufferToWav (ab : AudioBufM) : List ℕ :=
  let numOfChan := ab.numChannels
  let totalLength := ab.numFrames * numOfChan * 2 + 44
  u32le 0x46464952 ++ u32le (totalLength - 8) ++ u32le 0x45564157
    ++ u32le 0x20746d66 ++ u32le 16 ++ u16le 1 ++ u16le numOfChan
    ++ u32le ab.sampleRate ++ u32le (ab.sampleRate * 2 * numOfChan)
    ++ u16le (numOfChan * 2) ++ u16le 16
    ++ u32le 0x61746164 ++ u32le (totalLength - 44)
    ++ (List.range ab.numFrames).flatMap (fun i =>
        (List.range numOfChan).flatMap (fun ch => i16le (quantize16 (sampleAt ab ch i))))

/-- Truncation toward zero as the specification words it ("truncate toward
zero"): floor for non-negative values, negated floor of the negation
otherwise. -/
def specTruncToZero (q : ℚ) : ℤ := if 0 ≤ q then ⌊q⌋ else -(⌊-q⌋)

/-- Quantization as the specification words it: clamp to `[-1, 1]`, map
negative values via `sample*32768`, non-negative via `sample*32767`, truncate
toward zero. -/
def specQuantize (x : ℚ) : ℤ :=
  let s := min 1 (max (-1) x)
  if s < 0 then specTruncToZero (s * 32768) else specTruncToZero (s * 32767)

/-- The 44-byte header as the specification describes it: chunk IDs "RIFF",
"WAVE", "fmt ", "data" in ASCII, little-endian integers, PCM format tag 1,
16-bit depth, channel count and sample rate from the input, declared RIFF
size `L*C*2 + 44 - 8` and declared data size `L*C*2`. -/
def wavSpecHeader (C R L : ℕ) : List ℕ :=
  [82, 73, 70, 70]
    ++ u32le (L * C * 2 + 44 - 8)
    ++ [87, 65, 86, 69]
    ++ [102, 109, 116, 32]
    ++ u32le 16 ++ u16le 1 ++ u16le C ++ u32le R ++ u32le (R * 2 * C)
    ++ u16le (C * 2) ++ u16le 16
    ++ [100, 97, 116, 97]
    ++ u32le (L * C * 2)

/-- The whole container as the specification describes it: the header
followed by the interleaved quantized 16-bit samples. -/
def wavSpecBytes (C R L : ℕ) (sample : ℕ → ℕ → ℚ) : List ℕ :=
  wavSpecHeader C R L
    ++ (List.range L).flatMap (fun i =>
        (List.range C).flatMap (fun ch => i16le (specQuantize (sample ch i))))

/-- Value of a base64 alphabet character, `none` outside the alphabet. -/
def b64Index (c : Char) : Option ℕ :=
  if 'A' ≤ c ∧ c ≤ 'Z' then some (c.toNat - 65)
  else if 'a' ≤ c ∧ c ≤ 'z' then some (c.toNat - 97 + 26)
  else if '0' ≤ c ∧ c ≤ '9' then some (c.toNat - 48 + 52)
  else if c = '+' then some 62
  else if c = '/' then some 63
  else none

/-- ASCII whitespace skipped by forgiving-base64 decoding. -/
def isB64Ws (c : Char) : Bool :=
  c = '\t' || c = '\n' || c.toNat = 12 || c = '\r' || c = ' '

/-- Strip one or two trailing `=` padding characters. -/
def dropTrailingEq (l : List Char) : List Char :=
  if l.getLast? = some '=' then
    if l.dropLast.getLast? = some '=' then l.dropLast.dropLast else l.dropLast
  else l

/-- Map every character to its alphabet value, failing on the first invalid
character. -/
def mapB64 : List Char → Option (List ℕ)
  | [] => some []
  | c :: rest =>
      match b64Index c, mapB64 rest with
      | some v, some vs => some (v :: vs)
      | _, _ => none

/-- Turn a stream of 6-bit values into bytes (`acc` holds `bits` pending
bits); trailing bits that do not fill a byte are discarded, as
forgiving-base64 prescribes. -/
def sexAux : List ℕ → ℕ → ℕ → List ℕ
  | [], _, _ => []
  | v :: rest, acc, bits =>
      let acc2 := acc * 64 + v % 64
      let bits2 := bits + 6
      if 8 ≤ bits2 then
        (acc2 / 2 ^ (bits2 - 8)) % 256 :: sexAux rest (acc2 % 2 ^ (bits2 - 8)) (bits2 - 8)
      else sexAux rest acc2 bits2

/-- Bytes of a 6-bit value stream. -/
def sextetsToBytes (vs : List ℕ) : List ℕ := sexAux vs 0 0

/-- Browser `window.atob`: the WHATWG forgiving-base64 decode.  Remove ASCII
whitespace; if the length is a multiple of 4, strip up to two trailing `=`;
fail when the remaining length is `1 mod 4` or when any character is outside
the alphabet; otherwise emit one byte per 8 accumulated bits.  `none` models
the `InvalidCharacterError` the browser throws. -/
def atobBytes (s : String) : Option (List ℕ) :=
  let cs0 := s.data.filter (fun c => !isB64Ws c)
  let cs := if cs0.length % 4 = 0 then dropTrailingEq cs0 else cs0
  if cs.length % 4 = 1 then none
  else
    match mapB64 cs with
    | none => none
    | some vs => some (sextetsToBytes vs)

/-- Failure modes of `decodeAudio`: `window.atob` throws
`InvalidCharacterError` on malformed base64; `new Int16Array(buffer)` throws
`RangeError` when the byte length is not a multiple of 2;
`ctx.createBuffer(1, 0, 24000)` throws `NotSupportedError` when the frame
count is zero. -/
inductive DecodeErr where
  | invalidBase64
  | invalidPcmLength
  | emptyBuffer
deriving DecidableEq, Repr

/-- Reinterpreting two little-endian bytes as a signed 16-bit integer
(the `Int16Array` view over the decoded bytes). -/
def bytesToInt16 (b0 b1 : ℕ) : ℤ :=
  let w := b0 % 256 + 256 * (b1 % 256)
  if w < 32768 then (w : ℤ) else (w : ℤ) - 65536

/-- Element `dataInt16[i]` of the decoded byte stream. -/
def pcm16At (bytes : List ℕ) (i : ℕ) : ℤ :=
  bytesToInt16 (bytes.getD (2 * i) 0) (bytes.getD (2 * i + 1) 0)

/-- Function `decodeAudio` from `audioService.ts`: base64 → bytes → `Int16Array` →
mono 24 kHz float buffer with each sample `int16 / 32768.0`. -/
def decodeAudio (base64Data : String) : Except DecodeErr AudioBufM :=
  match atobBytes base64Data with
  | none => .error .invalidBase64
  | some bytes =>
      if bytes.length % 2 ≠ 0 then .error .invalidPcmLength
      else
        let frameCount := bytes.length / 2
        if frameCount = 0 then .error .emptyBuffer
        else .ok ⟨1, 24000, frameCount,
          [(List.range frameCount).map (fun i => (pcm16At bytes i : ℚ) / 32768)]⟩

/-- The sample value as the specification words it: the little-endian int16
`b0 + 256*b1`, sign-corrected, divided by 32768. -/
def specInt16 (b0 b1 : ℕ) : ℤ :=
  (b0 : ℤ) + 256 * (b1 : ℤ) - (if 128 ≤ b1 then 65536 else 0)

/-! The offline render (claim C8) is modelled at the level of the audio graph
that `getMixBuffer` wires up: gain nodes multiply, the destination sums its
inputs, and an `AudioParam` with a connected input adds the input signal to
its static value.  The produced signal of a source node
(`AudioBufferSourceNode` resampling at a playback rate, `OscillatorNode`
waveform generation with a detune input) is intrinsic browser DSP outside the
source code, so it is abstracted as an arbitrary `NodeSemantics`; every
mix-volume statement below holds for all node semantics, hence for the
browser's. -/

/-- The mood argument of `getMixBuffer`: a mood/preset tag or `'Custom'`. -/
inductive MoodSel where
  | custom
  | tag (mood : String)

/-- The parameters of `getMixBuffer` (its argument list). -/
structure MixParams where
  voiceBuffer : AudioBufM
  mood : MoodSel
  totalDuration : ℚ
  voiceVol : ℚ
  musicVol : ℚ
  tempo : ℚ
  customMusicBuffer : Option AudioBufM
  playbackSpeed : ℚ

/-- Abstract per-node DSP: `srcOut buffer rate loop ch n` is the sample an
`AudioBufferSourceNode` emits on channel `ch` at frame `n`; `oscOut kind freq
detune ch n` likewise for an `OscillatorNode` whose detune `AudioParam`
receives the signal `detune`. -/
structure NodeSemantics where
  srcOut : AudioBufM → ℚ → Bool → ℕ → ℕ → ℚ
  oscOut : OscKind → ℚ → (ℕ → ℚ) → ℕ → ℕ → ℚ

/-- The background branch of the graph: either the looped custom buffer, or
the synthesized bed — per-oscillator gains `0.15/partialCount` summed into
the pulse gain stage whose gain is `1 + lfoDepth * lfo(t)` with the LFO at
`lfoFreq * tempo`; oscillator `i` runs at `frequencies[i]` with a detune
input of amplitude `detuneAmount * 2` driven by a sine LFO at
`0.2 * (i+1) * tempo`.  With `mood = 'Custom'` and no custom buffer nothing
is connected, so the branch contributes 0. -/
def backgroundInput (S : NodeSemantics) (p : MixParams) (ch n : ℕ) : ℚ :=
  match p.mood with
  | .custom =>
      match p.customMusicBuffer with
      | some cb => S.srcOut cb 1 true ch n
      | none => 0
  | .tag mood =>
      let prof := getFrequenciesAndType mood
      let pulse := 1 + prof.lfoDepth * S.oscOut .sine (prof.lfoFreq * p.tempo) (fun _ => 0) ch n
      let oscsSum := (prof.frequencies.enum.map (fun q =>
          (0.15 / (prof.frequencies.length : ℚ)) *
            S.oscOut prof.type q.2
              (fun m => prof.detuneAmount * 2 *
                S.oscOut .sine (0.2 * ((q.1 : ℚ) + 1) * p.tempo) (fun _ => 0) ch m)
              ch n)).sum
      pulse * oscsSum

/-- One output sample of the `getMixBuffer` graph: the voice stem
(`voiceSrc → voiceGain(voiceVol) → destination`, the source playing at
`playbackSpeed`) plus the background branch through
`bgGain(musicVol) → destination`. -/
def getMixBuffer (S : NodeSemantics) (p : MixParams) (ch n : ℕ) : ℚ :=
  p.voiceVol * S.srcOut p.voiceBuffer p.playbackSpeed false ch n
    + p.musicVol * backgroundInput S p ch n

/-- Frame count `length = totalDuration * sampleRate` of the
`OfflineAudioContext(2, length, 44100)` (coerced to an integer frame
count). -/
def mixFrameCount (p : MixParams) : ℕ := (⌊p.totalDuration * 44100⌋).toNat

/-- The rendered stereo buffer of `getMixBuffer`. -/
def renderMixBuffer (S : NodeSemantics) (p : MixParams) : AudioBufM :=
  ⟨2, 44100, mixFrameCount p,
    (List.range 2).map (fun ch => (List.range (mixFrameCount p)).map (getMixBuffer S p ch))⟩

/-- The background-only render at the same parameters: the same graph with
the voice stem absent. -/
def renderBackgroundOnly (S : NodeSemantics) (p : MixParams) : AudioBufM :=
  ⟨2, 44100, mixFrameCount p,
    (List.range 2).map (fun ch => (List.range (mixFrameCount p)).map
      (fun n => p.musicVol * backgroundInput S p ch n))⟩

/-- A concrete node semantics (all sources and oscillators emit the constant
1) and concrete parameters for the C8 witness. -/
def demoSemantics : NodeSemantics := ⟨fun _ _ _ _ _ => 1, fun _ _ _ _ _ => 1⟩

/-- Concrete mix parameters for the C8 witness. -/
def demoParams : MixParams :=
  ⟨⟨1, 24000, 1, [[1]]⟩, .tag "Happy", 1 / 44100, 1 / 2, 1 / 3, 1, none, 1⟩

/-! ## Lemmas and claim theorems -/

lemma specWordWeight_eq_wordWeight : specWordWeight = wordWeight := by
  funext w
  have h1 : ((w.data.contains ',') = true) ↔ (',' ∈ w.data) := List.elem_iff
  have h2 : (endsSentencePunct w.data = true) ↔
      (w.data.getLast? = some '.' ∨ w.data.getLast? = some '!' ∨ w.data.getLast? = some '?') := by
    unfold endsSentencePunct
    cases w.data.getLast? <;> simp [or_assoc]
  simp only [specWordWeight, wordWeight, h1, h2]

lemma splitRaw_ne_nil (s : List Char) : splitRaw s ≠ [] := by
  induction s with
  | nil => simp [splitRaw]
  | cons c rest ih =>
      show addTok c (splitRaw rest) ≠ []
      unfold addTok
      split
      · simp
      · cases h : splitRaw rest with
        | nil => exact absurd h ih
        | cons t ts => simp [h]

lemma fields_cons_ne_nil (c : Char) (rest : List Char) (h : isWsChar c = false) :
    fields (c :: rest) ≠ [] := by
  unfold fields
  show (addTok c (splitRaw rest)).filter (fun t => !t.isEmpty) ≠ []
  unfold addTok
  rw [h]
  simp only [Bool.false_eq_true, if_false]
  cases hs : splitRaw rest with
  | nil => exact absurd hs (splitRaw_ne_nil rest)
  | cons t ts => simp [List.filter_cons]

lemma dropWhile_head_false (p : Char → Bool) (l : List Char) (c : Char) (rest : List Char)
    (h : l.dropWhile p = c :: rest) : p c = false := by
  induction l with
  | nil => simp [List.dropWhile] at h
  | cons a t ih =>
      rw [List.dropWhile_cons] at h
      by_cases ha : p a = true
      · rw [if_pos ha] at h
        exact ih h
      · rw [if_neg ha] at h
        cases h
        exact Bool.eq_false_iff.mpr ha

lemma jsTrim_head_not_ws (s : List Char) (c : Char) (rest : List Char)
    (h : jsTrim s = c :: rest) : isWsChar c = false := by
  unfold jsTrim at h
  obtain ⟨r, hr⟩ := ( List.rdropWhile_prefix isWsChar (s.dropWhile isWsChar))
  rw [h] at hr
  exact dropWhile_head_false isWsChar s c (rest ++ r) (by rw [← hr]; simp)

lemma tokenizeScript_ne_nil (caption : String) : tokenizeScript caption ≠ [] := by
  unfold tokenizeScript jsSplitWs
  cases ht : jsTrim caption.data with
  | nil => simp
  | cons c rest =>
      have hc : isWsChar c = false := jsTrim_head_not_ws caption.data c rest ht
      simp only [List.isEmpty_cons, if_false, Bool.false_eq_true, ne_eq, List.map_eq_nil_iff]
      exact fields_cons_ne_nil c rest hc

lemma one_le_wordWeight (w : String) : 1 ≤ wordWeight w := by
  have h : wordWeight w = w.data.length + (if w.data.length < 3 then 1 else 0)
      + (if w.data.contains ',' then 4 else 0)
      + (if endsSentencePunct w.data then 8 else 0) := rfl
  rw [h]
  split_ifs <;> omega

lemma one_le_totalWeightOf (caption : String) : 1 ≤ totalWeightOf caption := by
  unfold totalWeightOf
  cases h : tokenizeScript caption with
  | nil => exact absurd h (tokenizeScript_ne_nil caption)
  | cons w rest =>
      rw [List.map_cons, List.sum_cons]
      have := one_le_wordWeight w
      omega

lemma buildTimings_length (u : ℚ) (l : List (String × ℕ)) :
    ∀ (cur : ℚ) (i0 : ℕ), (buildTimings u l cur i0).length = l.length := by
  induction l with
  | nil => intro cur i0; rfl
  | cons p rest ih =>
      intro cur i0
      cases p with
      | mk w wt => simp [buildTimings, ih]

lemma prefixWeight_cons_succ (w0 : String) (rest : List String) (j : ℕ) :
    prefixWeight (w0 :: rest) (j + 1) = wordWeight w0 + prefixWeight rest j := by
  simp [prefixWeight, List.take_succ_cons]

lemma prefixWeight_succ (ws : List String) (j : ℕ) (w : String) (h : ws.get? j = some w) :
    prefixWeight ws (j + 1) = prefixWeight ws j + wordWeight w := by
  unfold prefixWeight
  rw [List.take_succ]
  rw [List.get?_eq_getElem?] at h
  simp [h]

lemma buildTimings_get? (u : ℚ) (ws : List String) :
    ∀ (j : ℕ) (cur : ℚ) (i0 : ℕ) (w : String), ws.get? j = some w →
      (buildTimings u (ws.map fun x => (x, wordWeight x)) cur i0).get? j =
        some ⟨w, cur + (prefixWeight ws j : ℚ) * u,
          cur + ((prefixWeight ws j : ℚ) + (wordWeight w : ℚ)) * u, i0 + j⟩ := by
  induction ws with
  | nil => intro j cur i0 w h; simp [List.get?] at h
  | cons w0 rest ih =>
      intro j cur i0 w h
      cases j with
      | zero =>
          rw [List.get?] at h
          cases h
          simp only [List.map_cons, buildTimings, List.get?]
          have h0 : prefixWeight (w0 :: rest) 0 = 0 := by simp [prefixWeight]
          rw [h0]
          push_cast
          norm_num
      | succ j =>
          rw [List.get?] at h
          simp only [List.map_cons, buildTimings, List.get?]
          rw [ih j (cur + (wordWeight w0 : ℚ) * u) (i0 + 1) w h]
          rw [prefixWeight_cons_succ]
          simp only [Option.some.injEq, WordTimingQ.mk.injEq]
          refine ⟨trivial, by push_cast; ring, by push_cast; ring, by omega⟩

lemma calculateWordTimings_eq_buildTimings (caption : String) (d : ℚ)
    (h1 : caption ≠ "") (h2 : 0 < d) :
    calculateWordTimings caption d =
      buildTimings (d / (totalWeightOf caption : ℚ))
        ((tokenizeScript caption).map fun w => (w, wordWeight w)) 0 0 := by
  unfold calculateWordTimings
  rw [if_neg (not_or.mpr ⟨h1, not_le.mpr h2⟩)]
  have hm : (((tokenizeScript caption).map fun w => (w, wordWeight w)).map Prod.snd) =
      (tokenizeScript caption).map wordWeight := by
    rw [List.map_map]
    rfl
  dsimp only
  rw [hm]
  rfl

lemma calculateWordTimings_get? (caption : String) (d : ℚ)
    (h1 : caption ≠ "") (h2 : 0 < d) (j : ℕ) (w : String)
    (hw : (tokenizeScript caption).get? j = some w) :
    (calculateWordTimings caption d).get? j =
      some ⟨w, (prefixWeight (tokenizeScript caption) j : ℚ) * (d / (totalWeightOf caption : ℚ)),
        ((prefixWeight (tokenizeScript caption) j : ℚ) + (wordWeight w : ℚ)) *
          (d / (totalWeightOf caption : ℚ)), j⟩ := by
  rw [calculateWordTimings_eq_buildTimings caption d h1 h2]
  rw [buildTimings_get? _ _ j 0 0 w hw]
  simp only [Option.some.injEq, WordTimingQ.mk.injEq]
  refine ⟨trivial, by ring, by ring, by omega⟩

lemma calculateWordTimings_length (caption : String) (d : ℚ)
    (h1 : caption ≠ "") (h2 : 0 < d) :
    (calculateWordTimings caption d).length = (tokenizeScript caption).length := by
  rw [calculateWordTimings_eq_buildTimings caption d h1 h2, buildTimings_length, List.length_map]

/-- Concrete evaluation of the heuristic on the spec's end-to-end example. -/
lemma helloTimings_eval :
    calculateWordTimings "Hello world." 2 =
      [⟨"Hello", 0, 10/19, 0⟩, ⟨"world.", 10/19, 2, 1⟩] := by
  have h1 : tokenizeScript "Hello world." = ["Hello", "world."] := by decide
  have h2 : wordWeight "Hello" = 5 := by decide
  have h3 : wordWeight "world." = 14 := by decide
  rw [calculateWordTimings, if_neg (not_or.mpr ⟨by decide, by norm_num⟩)]
  simp only [h1, h2, h3, List.map_cons, List.map_nil, List.sum_cons, List.sum_nil, buildTimings]
  norm_num

/-- Claim C1: for every whitespace-tokenized script and positive total audio
duration, the fallback caption-timing heuristic computes exactly what the
specification's formula says: each word gets weight
`length + (1 if length < 3) + (4 if contains ',') + (8 if it ends in .!?)`,
`unitDuration = totalAudioDuration / sum(weights)`, and the words are walked
in order with `start = cumulativeTime` and `end = start + weight*unitDuration`
(`specTimings` is the spec formula; the witness instantiates the spec's
"Hello world." / 2.0 s example). -/
theorem claim_C1_weighted_fallback_formula (caption : String) (d : ℚ)
    (h1 : caption ≠ "") (h2 : 0 < d) :
    calculateWordTimings caption d = specTimings caption d := by
  apply List.ext_get?
  intro n
  by_cases hn : n < (tokenizeScript caption).length
  · obtain ⟨w, hw⟩ : ∃ w, (tokenizeScript caption).get? n = some w :=
      ⟨_, List.get?_eq_get hn⟩
    rw [calculateWordTimings_get? caption d h1 h2 n w hw]
    unfold specTimings
    dsimp only
    rw [List.get?_map, List.get?_enum, hw]
    simp only [Option.map_some']
    simp only [specPrefixWeight, prefixWeight, specWordWeight_eq_wordWeight, totalWeightOf]
  · push_neg at hn
    have e1 : (calculateWordTimings caption d).get? n = none :=
      List.get?_eq_none.mpr (by rw [calculateWordTimings_length caption d h1 h2]; exact hn)
    have e2 : (specTimings caption d).get? n = none := by
      apply List.get?_eq_none.mpr
      unfold specTimings
      dsimp only
      rw [List.length_map, List.enum_length]
      exact hn
    rw [e1, e2]

/-- Witness for C1: the spec's end-to-end example.  `"Hello world."` at 2.0 s
gives weights 5 and 14, `unitDuration = 2/19`, word 0 spanning
`[0, 5*(2/19)) = [0, 10/19)` and word 1 spanning `[10/19, 2]`. -/
theorem claim_C1_weighted_fallback_formula_witness :
    calculateWordTimings "Hello world." 2 =
      [⟨"Hello", 0, 10/19, 0⟩, ⟨"world.", 10/19, 2, 1⟩] ∧
    specTimings "Hello world." 2 =
      [⟨"Hello", 0, 10/19, 0⟩, ⟨"world.", 10/19, 2, 1⟩] := by
  have t1 : tokenizeScript "Hello world." = ["Hello", "world."] := by decide
  have t2 : specWordWeight "Hello" = 5 := by decide
  have t3 : specWordWeight "world." = 14 := by decide
  have hspec : specTimings "Hello world." 2 =
      [⟨"Hello", 0, 10/19, 0⟩, ⟨"world.", 10/19, 2, 1⟩] := by
    unfold specTimings
    dsimp only
    rw [t1]
    simp only [List.enum, List.enumFrom, List.map_cons, List.map_nil, List.sum_cons,
      List.sum_nil, specPrefixWeight, List.take_zero, List.take_succ_cons, List.take_nil,
      t2, t3, WordTimingQ.mk.injEq, List.cons.injEq, List.nil_eq]
    norm_num
  exact ⟨by
    rw [claim_C1_weighted_fallback_formula "Hello world." 2 (by decide) (by norm_num)]
    exact hspec, hspec⟩

/-- Claim C2: for a non-empty script and positive duration the fallback
WordTiming sequence (a pure Lean function of the script and duration, hence
deterministic by construction) satisfies `start ≤ end` per word,
non-decreasing `start`, and the last word's `end` equals the input duration
exactly — no drift. -/
theorem claim_C2_fallback_timing_invariants (caption : String) (d : ℚ)
    (h1 : caption ≠ "") (h2 : 0 < d) :
    calculateWordTimings caption d ≠ []
    ∧ (∀ i a, (calculateWordTimings caption d).get? i = some a → a.start ≤ a.endT)
    ∧ (∀ i a b, (calculateWordTimings caption d).get? i = some a →
        (calculateWordTimings caption d).get? (i + 1) = some b → a.start ≤ b.start)
    ∧ (∀ a, (calculateWordTimings caption d).getLast? = some a → a.endT = d) := by
  have hlen := calculateWordTimings_length caption d h1 h2
  have hwsne := tokenizeScript_ne_nil caption
  have hpos : 0 < (tokenizeScript caption).length := List.length_pos.mpr hwsne
  have htwn : 0 < totalWeightOf caption := one_le_totalWeightOf caption
  have htw : (0:ℚ) < (totalWeightOf caption : ℚ) := by exact_mod_cast htwn
  have hu : 0 ≤ d / (totalWeightOf caption : ℚ) := le_of_lt (div_pos h2 htw)
  refine ⟨?_, ?_, ?_, ?_⟩
  · intro hnil
    rw [hnil] at hlen
    simp only [List.length_nil] at hlen
    omega
  · intro i a ha
    have hi : i < (tokenizeScript caption).length := by
      rw [← hlen]
      exact (List.get?_eq_some.mp ha).1
    obtain ⟨w, hw⟩ : ∃ w, (tokenizeScript caption).get? i = some w :=
      ⟨_, List.get?_eq_get hi⟩
    have hc := calculateWordTimings_get? caption d h1 h2 i w hw
    have ha2 : a = ⟨w,
        (prefixWeight (tokenizeScript caption) i : ℚ) * (d / (totalWeightOf caption : ℚ)),
        ((prefixWeight (tokenizeScript caption) i : ℚ) + (wordWeight w : ℚ)) *
          (d / (totalWeightOf caption : ℚ)), i⟩ :=
      Option.some.inj (ha.symm.trans hc)
    rw [ha2]
    apply mul_le_mul_of_nonneg_right _ hu
    have : (0:ℚ) ≤ (wordWeight w : ℚ) := by positivity
    linarith
  · intro i a b ha hb
    have hi : i < (tokenizeScript caption).length := by
      rw [← hlen]
      exact (List.get?_eq_some.mp ha).1
    have hi2 : i + 1 < (tokenizeScript caption).length := by
      rw [← hlen]
      exact (List.get?_eq_some.mp hb).1
    obtain ⟨w, hw⟩ : ∃ w, (tokenizeScript caption).get? i = some w :=
      ⟨_, List.get?_eq_get hi⟩
    obtain ⟨w2, hw2⟩ : ∃ w2, (tokenizeScript caption).get? (i + 1) = some w2 :=
      ⟨_, List.get?_eq_get hi2⟩
    have hc := calculateWordTimings_get? caption d h1 h2 i w hw
    have hc2 := calculateWordTimings_get? caption d h1 h2 (i + 1) w2 hw2
    have ha2 := Option.some.inj (ha.symm.trans hc)
    have hb2 := Option.some.inj (hb.symm.trans hc2)
    rw [ha2, hb2]
    dsimp only
    rw [prefixWeight_succ (tokenizeScript caption) i w hw]
    apply mul_le_mul_of_nonneg_right _ hu
    have : (0:ℚ) ≤ (wordWeight w : ℚ) := by positivity
    push_cast
    linarith
  · intro a ha
    rw [List.getLast?_eq_get?] at ha
    have hi : (calculateWordTimings caption d).length - 1 < (tokenizeScript caption).length := by
      omega
    have hieq : (calculateWordTimings caption d).length - 1 =
        (tokenizeScript caption).length - 1 := by omega
    rw [hieq] at ha
    obtain ⟨w, hw⟩ : ∃ w, (tokenizeScript caption).get? ((tokenizeScript caption).length - 1)
        = some w := ⟨_, List.get?_eq_get (by omega)⟩
    have hc := calculateWordTimings_get? caption d h1 h2 _ w hw
    have ha2 := Option.some.inj (ha.symm.trans hc)
    have hend : a.endT =
        ((prefixWeight (tokenizeScript caption) ((tokenizeScript caption).length - 1) : ℚ)
          + (wordWeight w : ℚ)) * (d / (totalWeightOf caption : ℚ)) := by
      rw [ha2]
    have hfull : prefixWeight (tokenizeScript caption) ((tokenizeScript caption).length - 1)
        + wordWeight w = totalWeightOf caption := by
      have := prefixWeight_succ (tokenizeScript caption) _ w hw
      have hsucc : (tokenizeScript caption).length - 1 + 1 = (tokenizeScript caption).length := by
        omega
      rw [hsucc] at this
      rw [← this]
      unfold prefixWeight totalWeightOf
      rw [List.take_length]
    rw [hend]
    push_cast [← hfull]
    push_cast [← hfull] at htw
    field_simp

/-- Witness for C2 at the "Hello world." / 2.0 s example: the sequence is
non-empty, word 0 satisfies `start ≤ end`, and the last word ends exactly at
the input duration 2. -/
theorem claim_C2_fallback_timing_invariants_witness :
    calculateWordTimings "Hello world." 2 ≠ [] ∧
    (⟨"Hello", 0, 10/19, 0⟩ : WordTimingQ).start ≤ (⟨"Hello", 0, 10/19, 0⟩ : WordTimingQ).endT ∧
    (⟨"world.", 10/19, 2, 1⟩ : WordTimingQ).endT = 2 := by
  have h := claim_C2_fallback_timing_invariants "Hello world." 2 (by decide) (by norm_num)
  refine ⟨h.1, h.2.1 0 _ ?_, h.2.2.2 _ ?_⟩
  · rw [helloTimings_eval]
    rfl
  · rw [helloTimings_eval]
    rfl

/-- Claim C10: the fallback timing computation is total and division-safe:
the empty caption or a non-positive duration yields `[]`; otherwise the
tokenizer always yields at least one token (a whitespace-only script yields
the single empty token, which gets the short-word bonus), every token's
weight is at least 1, and therefore the total weight is at least 1, making
`unitDuration = d / totalWeight` well defined (all times are rationals, hence
finite — the model has no NaN or infinity). -/
theorem claim_C10_totality_and_weights (caption : String) (d : ℚ) :
    ((caption = "" ∨ d ≤ 0) → calculateWordTimings caption d = [])
    ∧ tokenizeScript caption ≠ []
    ∧ (∀ w ∈ tokenizeScript caption, 1 ≤ wordWeight w)
    ∧ 1 ≤ totalWeightOf caption
    ∧ (jsTrim caption.data = [] → tokenizeScript caption = [""]) := by
  refine ⟨?_, tokenizeScript_ne_nil caption, ?_, one_le_totalWeightOf caption, ?_⟩
  · intro h
    unfold calculateWordTimings
    rw [if_pos h]
  · intro w _
    exact one_le_wordWeight w
  · intro h
    unfold tokenizeScript jsSplitWs
    rw [h]
    rfl

/-- Witness for C10: empty caption, negative duration, and a whitespace-only
script (single empty token of weight 1). -/
theorem claim_C10_totality_and_weights_witness :
    calculateWordTimings "" 1 = [] ∧ calculateWordTimings "Hi" (-1) = [] ∧
    tokenizeScript " " = [""] ∧ 1 ≤ totalWeightOf " " := by
  refine ⟨(claim_C10_totality_and_weights "" 1).1 (Or.inl rfl),
    (claim_C10_totality_and_weights "Hi" (-1)).1 (Or.inr (by norm_num)),
    (claim_C10_totality_and_weights " " 0).2.2.2.2 (by decide),
    (claim_C10_totality_and_weights " " 0).2.2.2.1⟩

lemma chunksOfAux_flatten (n : ℕ) (hn : n ≠ 0) :
    ∀ (fuel : ℕ) (l : List α), l.length ≤ fuel → (chunksOfAux n fuel l).flatten = l := by
  intro fuel
  induction fuel with
  | zero =>
      intro l hl
      cases l with
      | nil => rfl
      | cons c rest => simp at hl
  | succ fuel ih =>
      intro l hl
      cases l with
      | nil => rfl
      | cons c rest =>
          show (((c :: rest).take n) :: chunksOfAux n fuel ((c :: rest).drop n)).flatten
            = c :: rest
          rw [List.flatten_cons]
          rw [ih ((c :: rest).drop n)
            (by rw [List.length_drop]; simp only [List.length_cons] at hl ⊢; omega)]
          exact List.take_append_drop n (c :: rest)

lemma chunksOfAux_get? (n : ℕ) (hn : n ≠ 0) :
    ∀ (fuel : ℕ) (l : List α) (i : ℕ), l.length ≤ fuel →
      (chunksOfAux n fuel l).get? i =
        if n * i < l.length then some ((l.drop (n * i)).take n) else none := by
  intro fuel
  induction fuel with
  | zero =>
      intro l i hl
      cases l with
      | nil => simp [chunksOfAux]
      | cons c rest => simp at hl
  | succ fuel ih =>
      intro l i hl
      cases l with
      | nil => simp [chunksOfAux]
      | cons c rest =>
          show ((((c :: rest).take n) :: chunksOfAux n fuel ((c :: rest).drop n)).get? i) = _
          cases i with
          | zero =>
              rw [List.get?]
              rw [if_pos (by simp only [Nat.mul_zero, List.length_cons]; omega)]
              simp
          | succ i =>
              rw [List.get?]
              rw [ih ((c :: rest).drop n) i
                (by rw [List.length_drop]; simp only [List.length_cons] at hl ⊢; omega)]
              rw [List.drop_drop]
              have harith : n + n * i = n * (i + 1) := by ring
              rw [harith]
              rw [List.length_drop]
              by_cases hc : n * (i + 1) < (c :: rest).length
              · rw [if_pos (by omega), if_pos hc]
              · rw [if_neg (by omega), if_neg hc]

lemma chunksOf_flatten (n : ℕ) (hn : n ≠ 0) (l : List α) : (chunksOf n l).flatten = l := by
  unfold chunksOf
  rw [if_neg hn]
  exact chunksOfAux_flatten n hn l.length l le_rfl

lemma chunksOf_get? (n : ℕ) (hn : n ≠ 0) (l : List α) (i : ℕ) :
    (chunksOf n l).get? i =
      if n * i < l.length then some ((l.drop (n * i)).take n) else none := by
  unfold chunksOf
  rw [if_neg hn]
  exact chunksOfAux_get? n hn l.length l i le_rfl

lemma mem_chunksOf_ne_nil (n : ℕ) (hn : n ≠ 0) (l : List α) (c : List α)
    (hc : c ∈ chunksOf n l) : c ≠ [] := by
  obtain ⟨i, hi⟩ := List.mem_iff_get?.mp hc
  rw [chunksOf_get? n hn l i] at hi
  by_cases hcond : n * i < l.length
  · rw [if_pos hcond] at hi
    cases hi
    intro hnil
    have hlen : ((l.drop (n * i)).take n).length = 0 := by rw [hnil]; rfl
    rw [List.length_take, List.length_drop] at hlen
    omega
  · rw [if_neg hcond] at hi
    cases hi

lemma headD_of_head? (l : List α) (w d : α) (h : l.head? = some w) : l.headD d = w := by
  cases l with
  | nil => cases h
  | cons a t =>
      rw [List.head?_cons] at h
      cases h
      rfl

lemma getLastD_of_getLast? (l : List α) (w d : α) (h : l.getLast? = some w) :
    l.getLastD d = w := by
  rw [List.getLastD_eq_getLast?, h]
  rfl

lemma wordsPerChunk_ne_zero (ar : Aspect) : wordsPerChunk ar ≠ 0 := by
  cases ar <;> simp [wordsPerChunk]

/-- Claim C5: `getCaptionChunks` partitions the WordTiming sequence into
windows of `N` consecutive words (`N = 7` for 16:9, `N = 4` for 9:16,
chunk `i` holding exactly the words at positions `[N*i, N*i + N)`),
concatenating all chunks' word sequences reproduces the original sequence
with no gaps or duplicates, and each chunk's `startTime`/`endTime` are its
first word's `start` and last word's `end`. -/
theorem claim_C5_chunk_partition (wt : List WordTimingQ) (ar : Aspect) :
    ((getCaptionChunks wt ar).map CaptionChunkQ.words).flatten = wt
    ∧ (getCaptionChunks wt ar).map CaptionChunkQ.words = chunksOf (wordsPerChunk ar) wt
    ∧ (∀ i c, (getCaptionChunks wt ar).get? i = some c →
        c.words = (wt.drop (wordsPerChunk ar * i)).take (wordsPerChunk ar))
    ∧ (∀ c ∈ getCaptionChunks wt ar, c.words ≠ []
        ∧ (∀ w, c.words.head? = some w → c.startTime = w.start)
        ∧ (∀ w, c.words.getLast? = some w → c.endTime = w.endT)) := by
  have hn := wordsPerChunk_ne_zero ar
  have hmap : (getCaptionChunks wt ar).map CaptionChunkQ.words
      = chunksOf (wordsPerChunk ar) wt := by
    unfold getCaptionChunks
    rw [List.map_map]
    exact List.map_id _
  refine ⟨?_, hmap, ?_, ?_⟩
  · rw [hmap]
    exact chunksOf_flatten _ hn wt
  · intro i c hc
    unfold getCaptionChunks at hc
    rw [List.get?_map] at hc
    cases hcw : (chunksOf (wordsPerChunk ar) wt).get? i with
    | none => rw [hcw] at hc; cases hc
    | some cw =>
        rw [hcw] at hc
        cases hc
        rw [chunksOf_get? _ hn wt i] at hcw
        by_cases hcond : wordsPerChunk ar * i < wt.length
        · rw [if_pos hcond] at hcw
          cases hcw
          rfl
        · rw [if_neg hcond] at hcw
          cases hcw
  · intro c hc
    unfold getCaptionChunks at hc
    obtain ⟨cw, hcwmem, hcw⟩ := List.mem_map.mp hc
    have hne : cw ≠ [] := mem_chunksOf_ne_nil _ hn wt cw hcwmem
    refine ⟨by rw [← hcw]; exact hne, ?_, ?_⟩
    · intro w hw
      rw [← hcw] at hw
      rw [← hcw]
      show (cw.headD default).start = w.start
      rw [headD_of_head? cw w default hw]
    · intro w hw
      rw [← hcw] at hw
      rw [← hcw]
      show (cw.getLastD default).endT = w.endT
      rw [getLastD_of_getLast? cw w default hw]

/-- Witness for C5: five words at 9:16 (window size 4) — concatenation
reproduces the list, and chunk 1 holds exactly the words from position 4. -/
theorem claim_C5_chunk_partition_witness :
    ((getCaptionChunks demoTimings .nineSixteen).map CaptionChunkQ.words).flatten = demoTimings
    ∧ (∀ c, (getCaptionChunks demoTimings .nineSixteen).get? 1 = some c →
        c.words = [⟨"e", 4, 5, 4⟩]) := by
  have h := claim_C5_chunk_partition demoTimings .nineSixteen
  refine ⟨h.1, ?_⟩
  intro c hc
  rw [h.2.2.1 1 c hc]
  decide

lemma find?_first (p : α → Bool) :
    ∀ (l : List α) (i : ℕ) (a : α), l.get? i = some a → p a = true →
      (∀ j b, j < i → l.get? j = some b → p b = false) → l.find? p = some a := by
  intro l
  induction l with
  | nil => intro i a h; cases h
  | cons x t ih =>
      intro i a h hp hprev
      cases i with
      | zero =>
          rw [List.get?] at h
          cases h
          exact List.find?_cons_of_pos t hp
      | succ i =>
          rw [List.get?] at h
          have px : p x = false := hprev 0 x (Nat.succ_pos i) rfl
          rw [List.find?_cons_of_neg t (by rw [px]; simp)]
          exact ih i a h hp (fun j b hj hb => hprev (j + 1) b (by omega) hb)

/-- Counterexample to C6 as stated: take the single chunk spanning `[1, 2)`,
elapsed time 3 and total audio duration 10.  No chunk's `[startTime, endTime)`
contains 3 and 3 is *not* before the first chunk's start, yet the compositor
still selects the first chunk, because the code falls back to
`captionChunks[0]` whenever `elapsed < audioBuffer.duration`, regardless of
where the first chunk starts. -/
theorem claim_C6_counterexample :
    findActiveChunk [⟨[⟨"hi", 1, 2, 0⟩], 1, 2⟩] 3 10 = some ⟨[⟨"hi", 1, 2, 0⟩], 1, 2⟩
    ∧ chunkContains 3 ⟨[⟨"hi", 1, 2, 0⟩], 1, 2⟩ = false
    ∧ ¬((3:ℚ) < (1:ℚ))
    ∧ (3:ℚ) ≤ 10 := by
  refine ⟨?_, by decide, by decide, by decide⟩
  unfold findActiveChunk
  have hf : ([⟨[⟨"hi", 1, 2, 0⟩], 1, 2⟩] :
      List CaptionChunkQ).find? (chunkContains 3) = none := by decide
  rw [hf]
  decide

/-- Claim C6 (amended): the active chunk is the first chunk whose
`[startTime, endTime)` contains the elapsed time; when no chunk contains it,
the first chunk (if any) is selected exactly when the elapsed time is below
the total audio duration — regardless of where the first chunk starts — and
nothing is selected otherwise.  Conversely a selected chunk either contains
the elapsed time or is the first chunk with elapsed time below the
duration. -/
theorem claim_C6_active_chunk_selection (cs : List CaptionChunkQ) (e d : ℚ) :
    (∀ i c, cs.get? i = some c → chunkContains e c = true →
        (∀ j c2, j < i → cs.get? j = some c2 → chunkContains e c2 = false) →
        findActiveChunk cs e d = some c)
    ∧ ((∀ c ∈ cs, chunkContains e c = false) →
        findActiveChunk cs e d = if e < d then cs.head? else none)
    ∧ (∀ c, findActiveChunk cs e d = some c →
        chunkContains e c = true ∨ (cs.head? = some c ∧ e < d)) := by
  refine ⟨?_, ?_, ?_⟩
  · intro i c hc hp hprev
    unfold findActiveChunk
    rw [find?_first (chunkContains e) cs i c hc hp hprev]
  · intro hall
    unfold findActiveChunk
    rw [List.find?_eq_none.mpr (fun x hx => by rw [hall x hx]; simp)]
  · intro c h
    unfold findActiveChunk at h
    cases hf : cs.find? (chunkContains e) with
    | some c2 =>
        rw [hf] at h
        cases h
        exact Or.inl (List.find?_some hf)
    | none =>
        rw [hf] at h
        by_cases he : e < d
        · rw [if_pos he] at h
          exact Or.inr ⟨h, he⟩
        · rw [if_neg he] at h
          cases h

/-- Witness for the amended C6: a chunk spanning `[0, 5)` is selected at
elapsed time 1 because it contains 1 and is first. -/
theorem claim_C6_active_chunk_selection_witness :
    findActiveChunk [⟨[⟨"hi", 0, 5, 0⟩], 0, 5⟩] 1 5 = some ⟨[⟨"hi", 0, 5, 0⟩], 0, 5⟩ := by
  exact (claim_C6_active_chunk_selection [⟨[⟨"hi", 0, 5, 0⟩], 0, 5⟩] 1 5).1 0
    ⟨[⟨"hi", 0, 5, 0⟩], 0, 5⟩ rfl (by decide)
    (fun j c2 hj _ => absurd hj (Nat.not_lt_zero j))

/-- Claim C7: any mood or preset tag outside the recognized set yields the
fixed default three-partial sine profile — the lookup is total (it cannot
throw; in the embedding it is a total function) and the returned frequency
list is non-empty, so synthesis driven by it has partials to play. -/
theorem claim_C7_unknown_mood_default (mood : String) (h : mood ∉ recognizedMoodTags) :
    getFrequenciesAndType mood = defaultMoodProfile
    ∧ (getFrequenciesAndType mood).frequencies.length = 3
    ∧ (getFrequenciesAndType mood).frequencies ≠ []
    ∧ (getFrequenciesAndType mood).type = OscKind.sine := by
  simp only [recognizedMoodTags, List.mem_cons, List.not_mem_nil, or_false, not_or] at h
  obtain ⟨h1, h2, h3, h4, h5, h6, h7, h8, h9, h10, h11, h12⟩ := h
  have hdef : getFrequenciesAndType mood = defaultMoodProfile := by
    unfold getFrequenciesAndType
    rw [if_neg h1, if_neg h2, if_neg h3, if_neg h4, if_neg h5, if_neg h6, if_neg h7,
      if_neg h8, if_neg h9, if_neg h10, if_neg h11, if_neg h12]
    rfl
  rw [hdef]
  exact ⟨rfl, rfl, by decide, rfl⟩

/-- Witness for C7 at the unrecognized tag "Romantic". -/
theorem claim_C7_unknown_mood_default_witness :
    "Romantic" ∉ recognizedMoodTags
    ∧ getFrequenciesAndType "Romantic" = defaultMoodProfile
    ∧ (getFrequenciesAndType "Romantic").frequencies ≠ [] := by
  have hnot : "Romantic" ∉ recognizedMoodTags := by decide
  have h := claim_C7_unknown_mood_default "Romantic" hnot
  exact ⟨hnot, h.1, h.2.2.1⟩

lemma specTruncToZero_eq_ratTrunc (q : ℚ) : specTruncToZero q = ratTrunc q := by
  unfold specTruncToZero ratTrunc
  by_cases h : 0 ≤ q
  · rw [if_pos h, Rat.floor_def]
    exact (Int.div_eq_ediv (Rat.num_nonneg.mpr h) (Int.natCast_nonneg q.den)).symm
  · rw [if_neg h, Rat.floor_def]
    have hnum : q.num ≤ 0 := le_of_lt (Rat.num_neg.mpr (lt_of_not_le h))
    rw [Rat.neg_den, Rat.neg_num]
    rw [show q.num.tdiv (q.den : ℤ) = -((-q.num).tdiv (q.den : ℤ)) from by
      rw [Int.neg_tdiv, neg_neg]]
    congr 1
    exact (Int.div_eq_ediv (by omega) (Int.natCast_nonneg q.den)).symm

lemma quantize16_eq_specQuantize : quantize16 = specQuantize := by
  funext x
  unfold quantize16 specQuantize clamp1
  dsimp only
  have hclamp : max (-1 : ℚ) (min 1 x) = min 1 (max (-1) x) := by
    rw [max_min_distrib_left]
    norm_num
  rw [hclamp]
  by_cases h : min 1 (max (-1 : ℚ) x) < 0
  · rw [if_pos h, if_pos h, specTruncToZero_eq_ratTrunc]
  · rw [if_neg h, if_neg h, specTruncToZero_eq_ratTrunc]

/-- Claim C3: for every buffer with `C` channels, sample rate `R` and `L`
frames, `bufferToWav` emits exactly the container the specification
describes: the 44-byte "RIFF"/"WAVE"/"fmt "/"data" header with little-endian
fields, PCM tag 1, 16-bit depth, channel count `C`, sample rate `R`, declared
RIFF size `L*C*2 + 44 - 8` and data size `L*C*2`, followed by the interleaved
16-bit samples, each clamped to `[-1, 1]` and quantized by `*32768` (negative)
or `*32767` (non-negative) truncated toward zero. -/
theorem claim_C3_wav_container_format (ab : AudioBufM) :
    bufferToWav ab = wavSpecBytes ab.numChannels ab.sampleRate ab.numFrames (sampleAt ab)
    ∧ (wavSpecHeader ab.numChannels ab.sampleRate ab.numFrames).length = 44
    ∧ (bufferToWav ab).length = 44 + ab.numFrames * ab.numChannels * 2 := by
  have hlen44 : (wavSpecHeader ab.numChannels ab.sampleRate ab.numFrames).length = 44 := by
    simp [wavSpecHeader, u32le, u16le]
  have hmain : bufferToWav ab
      = wavSpecBytes ab.numChannels ab.sampleRate ab.numFrames (sampleAt ab) := by
    unfold bufferToWav wavSpecBytes wavSpecHeader
    dsimp only
    rw [show u32le 0x46464952 = [82, 73, 70, 70] from by decide]
    rw [show u32le 0x45564157 = [87, 65, 86, 69] from by decide]
    rw [show u32le 0x20746d66 = [102, 109, 116, 32] from by decide]
    rw [show u32le 0x61746164 = [100, 97, 116, 97] from by decide]
    rw [show ab.numFrames * ab.numChannels * 2 + 44 - 44 = ab.numFrames * ab.numChannels * 2
      from by omega]
    rw [quantize16_eq_specQuantize]
  refine ⟨hmain, hlen44, ?_⟩
  rw [hmain]
  unfold wavSpecBytes
  rw [List.length_append, hlen44]
  have hdata : ((List.range ab.numFrames).flatMap (fun i =>
      (List.range ab.numChannels).flatMap
        (fun ch => i16le (specQuantize (sampleAt ab ch i))))).length
      = ab.numFrames * (ab.numChannels * 2) := by
    rw [List.length_flatMap]
    have hinner : ∀ i, ((List.range ab.numChannels).flatMap
        (fun ch => i16le (specQuantize (sampleAt ab ch i)))).length
        = ab.numChannels * 2 := by
      intro i
      rw [List.length_flatMap]
      have : (List.map (List.length ∘ fun ch => i16le (specQuantize (sampleAt ab ch i)))
          (List.range ab.numChannels)) = List.map (fun _ => 2) (List.range ab.numChannels) := by
        apply List.map_congr_left
        intro a _
        rfl
      rw [this, List.map_const', List.sum_replicate, List.length_range, smul_eq_mul]
    have : (List.map (List.length ∘ fun i => (List.range ab.numChannels).flatMap
        (fun ch => i16le (specQuantize (sampleAt ab ch i)))) (List.range ab.numFrames))
        = List.map (fun _ => ab.numChannels * 2) (List.range ab.numFrames) := by
      apply List.map_congr_left
      intro a _
      exact hinner a
    rw [this, List.map_const', List.sum_replicate, List.length_range, smul_eq_mul]
  rw [hdata]
  ring

lemma sexAux_bytes_lt (vs : List ℕ) :
    ∀ (acc bits : ℕ) (b : ℕ), b ∈ sexAux vs acc bits → b < 256 := by
  induction vs with
  | nil => intro acc bits b h; cases h
  | cons v rest ih =>
      intro acc bits b h
      unfold sexAux at h
      dsimp only at h
      by_cases hb : 8 ≤ bits + 6
      · rw [if_pos hb] at h
        rcases List.mem_cons.mp h with h | h
        · rw [h]; exact Nat.mod_lt _ (by norm_num)
        · exact ih _ _ b h
      · rw [if_neg hb] at h
        exact ih _ _ b h

lemma atobBytes_lt (s : String) (bytes : List ℕ) (h : atobBytes s = some bytes) :
    ∀ b ∈ bytes, b < 256 := by
  unfold atobBytes at h
  dsimp only at h
  intro b hb
  by_cases h1 : (if (s.data.filter (fun c => !isB64Ws c)).length % 4 = 0 then
      dropTrailingEq (s.data.filter (fun c => !isB64Ws c))
      else (s.data.filter (fun c => !isB64Ws c))).length % 4 = 1
  · rw [if_pos h1] at h
    cases h
  · rw [if_neg h1] at h
    cases hm : mapB64 (if (s.data.filter (fun c => !isB64Ws c)).length % 4 = 0 then
        dropTrailingEq (s.data.filter (fun c => !isB64Ws c))
        else (s.data.filter (fun c => !isB64Ws c))) with
    | none => rw [hm] at h; cases h
    | some vs =>
        rw [hm] at h
        cases h
        exact sexAux_bytes_lt vs 0 0 b hb

lemma getD_mem_of_lt (l : List ℕ) (n : ℕ) (h : n < l.length) : l.getD n 0 ∈ l := by
  rw [List.getD_eq_getElem?_getD, List.getElem?_eq_getElem h]
  exact List.getElem_mem h

lemma bytesToInt16_eq_specInt16 (b0 b1 : ℕ) (h0 : b0 < 256) (h1 : b1 < 256) :
    bytesToInt16 b0 b1 = specInt16 b0 b1 := by
  unfold bytesToInt16 specInt16
  dsimp only
  rw [Nat.mod_eq_of_lt h0, Nat.mod_eq_of_lt h1]
  by_cases hw : b0 + 256 * b1 < 32768
  · rw [if_pos hw, if_neg (by omega)]
    push_cast
    ring
  · rw [if_neg hw, if_pos (by omega)]
    push_cast
    ring

/-- Claim C4: for every well-formed base64 payload decoding to a non-empty
even-length byte stream, `decodeAudio` returns a buffer with exactly 1
channel, a 24,000 Hz sample rate, frame count `byteLength / 2`, and sample
`i` equal to the little-endian int16 at offset `2*i` divided by 32768. -/
theorem claim_C4_pcm_decode_shape (s : String) (bytes : List ℕ)
    (hdec : atobBytes s = some bytes) (hne : bytes ≠ []) (heven : bytes.length % 2 = 0) :
    ∃ buf, decodeAudio s = .ok buf
      ∧ buf.numChannels = 1
      ∧ buf.sampleRate = 24000
      ∧ buf.numFrames = bytes.length / 2
      ∧ buf.channels.length = 1
      ∧ (∀ i, i < bytes.length / 2 →
          sampleAt buf 0 i
            = (specInt16 (bytes.getD (2 * i) 0) (bytes.getD (2 * i + 1) 0) : ℚ) / 32768) := by
  have hpos : 0 < bytes.length := List.length_pos.mpr hne
  have hfc : bytes.length / 2 ≠ 0 := by omega
  refine ⟨⟨1, 24000, bytes.length / 2,
    [(List.range (bytes.length / 2)).map (fun i => (pcm16At bytes i : ℚ) / 32768)]⟩,
    ?_, rfl, rfl, rfl, rfl, ?_⟩
  · unfold decodeAudio
    rw [hdec]
    dsimp only
    rw [if_neg (by omega), if_neg hfc]
  · intro i hi
    unfold sampleAt
    dsimp only
    rw [show (([(List.range (bytes.length / 2)).map
        (fun i => (pcm16At bytes i : ℚ) / 32768)] : List (List ℚ)).getD 0 [])
      = (List.range (bytes.length / 2)).map (fun i => (pcm16At bytes i : ℚ) / 32768) from rfl]
    rw [List.getD_eq_getElem?_getD, List.getElem?_map,
      List.getElem?_range hi]
    dsimp only [Option.map_some', Option.getD_some]
    unfold pcm16At
    rw [bytesToInt16_eq_specInt16 _ _
      (atobBytes_lt s bytes hdec _ (getD_mem_of_lt bytes (2 * i) (by omega)))
      (atobBytes_lt s bytes hdec _ (getD_mem_of_lt bytes (2 * i + 1) (by omega)))]

/-- Witness for C4: `"AAAAAA=="` decodes to four zero bytes and yields a
1-channel, 24 kHz, 2-frame buffer. -/
theorem claim_C4_pcm_decode_shape_witness :
    atobBytes "AAAAAA==" = some [0, 0, 0, 0]
    ∧ ∃ buf, decodeAudio "AAAAAA==" = .ok buf
        ∧ buf.numChannels = 1 ∧ buf.sampleRate = 24000 ∧ buf.numFrames = 2 := by
  have hdec : atobBytes "AAAAAA==" = some [0, 0, 0, 0] := by decide
  obtain ⟨buf, h1, h2, h3, h4, -, -⟩ :=
    claim_C4_pcm_decode_shape "AAAAAA==" [0, 0, 0, 0] hdec (by decide) (by decide)
  exact ⟨hdec, buf, h1, h2, h3, by rw [h4]; decide⟩

/-- Claim C9: a malformed base64 payload (one `window.atob` rejects) or the
empty payload makes `decodeAudio` fail with a decode error — it never
produces a buffer for such input.  (The empty string decodes to zero bytes,
and `createBuffer` with frame count 0 throws.) -/
theorem claim_C9_decode_failure (s : String) (h : atobBytes s = none ∨ s = "") :
    ∃ e, decodeAudio s = .error e := by
  cases h with
  | inl h =>
      refine ⟨.invalidBase64, ?_⟩
      unfold decodeAudio
      rw [h]
  | inr h =>
      subst h
      exact ⟨.emptyBuffer, rfl⟩

/-- Witness for C9: the malformed payload `"$$$"` and the empty payload. -/
theorem claim_C9_decode_failure_witness :
    (∃ e, decodeAudio "$$$" = .error e) ∧ (∃ e, decodeAudio "" = .error e) :=
  ⟨claim_C9_decode_failure "$$$" (Or.inl (by decide)),
   claim_C9_decode_failure "" (Or.inr rfl)⟩

/-- Claim C8: for every node semantics and every set of mix parameters,
rendering with `voiceVolume = 0` produces exactly the background-only render
at the same parameters (in the exact-rational model, equality — a fortiori
"within floating-point tolerance"), and rendering with both volumes at 0
produces the all-zero buffer. -/
theorem claim_C8_mix_volume_linearity (S : NodeSemantics) (p : MixParams) :
    renderMixBuffer S { p with voiceVol := 0 } = renderBackgroundOnly S p
    ∧ (∀ c ∈ (renderMixBuffer S { p with voiceVol := 0, musicVol := 0 }).channels,
        ∀ x ∈ c, x = 0) := by
  constructor
  · have hpt : ∀ ch n, getMixBuffer S { p with voiceVol := 0 } ch n
        = p.musicVol * backgroundInput S p ch n := by
      intro ch n
      unfold getMixBuffer
      show (0:ℚ) * _ + _ = _
      rw [zero_mul, zero_add]
      rfl
    unfold renderMixBuffer renderBackgroundOnly
    simp only [AudioBufM.mk.injEq, true_and]
    refine ⟨rfl, ?_⟩
    apply List.map_congr_left
    intro ch _
    apply List.map_congr_left
    intro n _
    exact hpt ch n
  · intro c hc x hx
    unfold renderMixBuffer at hc
    obtain ⟨ch, -, hch⟩ := List.mem_map.mp hc
    rw [← hch] at hx
    obtain ⟨n, -, hn⟩ := List.mem_map.mp hx
    rw [← hn]
    unfold getMixBuffer
    show (0:ℚ) * _ + (0:ℚ) * _ = 0
    rw [zero_mul, zero_mul, zero_add]

/-- Witness for C8 at the concrete semantics and parameters. -/
theorem claim_C8_mix_volume_linearity_witness :
    renderMixBuffer demoSemantics { demoParams with voiceVol := 0 }
      = renderBackgroundOnly demoSemantics demoParams
    ∧ getMixBuffer demoSemantics { demoParams with voiceVol := 0, musicVol := 0 } 0 0 = 0 := by
  have h := claim_C8_mix_volume_linearity demoSemantics demoParams
  refine ⟨h.1, ?_⟩
  have hfc : mixFrameCount { demoParams with voiceVol := 0, musicVol := 0 } = 1 := by
    unfold mixFrameCount demoParams
    norm_num
  apply h.2 ((List.range (mixFrameCount
      { demoParams with voiceVol := 0, musicVol := 0 })).map
      (getMixBuffer demoSemantics { demoParams with voiceVol := 0, musicVol := 0 } 0))
  · exact List.mem_map.mpr ⟨0, by decide, rfl⟩
  · apply List.mem_map.mpr
    refine ⟨0, ?_, rfl⟩
    rw [hfc]
    decide
